import Mathlib

/-!
Verification development for the `lazyplex` runtime.

Each definition is a shallow embedding of the corresponding Python
definition in `src/lazyplex`; the file then proves or refutes the
specification's claims about those definitions.  Async/await is embedded
by pure value passing (awaiting a finished value is the identity), and
the cooperative event loop is embedded as an explicit small-step
scheduler over task states.
-/

namespace Lazyplex

/-! ## Scoped context (`core/context.py`)

The Python `ApplicationContext` is a `dict` subclass (the base mapping)
together with a context-variable `_branch_context` holding the currently
active branch overlay (a plain `dict`, or unset).  We embed both
mappings as association lists and the overlay as an `Option`.
-/

variable {K V : Type} [DecidableEq K]

/-- Association-list lookup: the value stored for `key`, if present. -/
def lookupA : List (K × V) → K → Option V
  | [], _ => none
  | (k, v) :: rest, key => if k = key then some v else lookupA rest key

/-- Membership `key in mapping` (Python `__contains__` on a plain dict). -/
def memKey (l : List (K × V)) (key : K) : Bool :=
  (lookupA l key).isSome

/-- Assignment `mapping[key] = v` on a plain dict: update in place if the key is
present, otherwise add the entry. -/
def setA : List (K × V) → K → V → List (K × V)
  | [], key, v => [(key, v)]
  | (k, w) :: rest, key, v =>
      if k = key then (k, v) :: rest else (k, w) :: setA rest key v

/-- The state of `ApplicationContext`: the base dict plus the value of
`_branch_context` (`none` when no branch overlay is active). -/
structure AppCtx (K V : Type) where
  base : List (K × V)
  branch : Option (List (K × V))
  deriving Repr

/-- Model of `ApplicationContext.__setitem__`: when a branch is active (`is not
None`) and (`key in branch or not super().__contains__(key)`), write to
the branch; otherwise write to the base dict. -/
def ctxSetItem (ctx : AppCtx K V) (key : K) (v : V) : AppCtx K V :=
  match ctx.branch with
  | some br =>
      if memKey br key || !(memKey ctx.base key) then
        { ctx with branch := some (setA br key v) }
      else
        { ctx with base := setA ctx.base key v }
  | none => { ctx with base := setA ctx.base key v }

/-- Model of `ApplicationContext.__getitem__`: when the branch is truthy
(non-empty), try the branch first and fall through to the base on
`KeyError`; otherwise read the base.  A missing key is `none`
(`KeyError`). -/
def ctxGetItem (ctx : AppCtx K V) (key : K) : Option V :=
  match ctx.branch with
  | some br =>
      if br.isEmpty then lookupA ctx.base key
      else
        match lookupA br key with
        | some v => some v
        | none => lookupA ctx.base key
  | none => lookupA ctx.base key

/-- Model of `ApplicationContext.__iter__`: iterates
`set(branch.keys()) & set(super().keys())` — the intersection of the
overlay's keys with the base's keys (the Python `set` is embedded as a
key list up to membership; an absent branch is `{}`). -/
def ctxIterKeys (ctx : AppCtx K V) : List K :=
  ((ctx.branch.getD []).map Prod.fst).filter (fun k => memKey ctx.base k)

/-- One item-scoped run of context writes: `runOps` applies each
`(key, value)` assignment through `ctxSetItem` in order. -/
def runOps (ctx : AppCtx K V) : List (K × V) → AppCtx K V
  | [] => ctx
  | (k, v) :: rest => runOps (ctxSetItem ctx k v) rest

/-- The `ApplicationAction.process_item` context discipline
(`with branch({**item_context}): ...`): enter a fresh overlay seeded
with the item context, perform the item's context writes, and on exit
(normal or exceptional — the `branch` context manager resets the token
in a `finally`) restore the previous overlay state.  An exceptional
exit after a prefix of the writes is the same function applied to that
prefix. -/
def processItemCtx (ctx : AppCtx K V) (seed : List (K × V))
    (ops : List (K × V)) : AppCtx K V :=
  { runOps { ctx with branch := some seed } ops with branch := ctx.branch }

/-! Basic association-list lemmas. -/

theorem lookupA_setA (l : List (K × V)) (k k' : K) (v : V) :
    lookupA (setA l k v) k' = if k = k' then some v else lookupA l k' := by
  induction l with
  | nil =>
      simp only [setA, lookupA]
  | cons p rest ih =>
      obtain ⟨a, b⟩ := p
      by_cases hak : a = k
      · subst hak
        by_cases h : a = k' <;> simp [setA, lookupA, h]
      · simp only [setA, if_neg hak, lookupA]
        by_cases hak' : a = k'
        · subst hak'
          have : ¬ k = a := fun h => hak h.symm
          simp [this]
        · simp [hak', ih]

theorem memKey_setA (l : List (K × V)) (k k' : K) (v : V) :
    memKey (setA l k v) k' = (decide (k = k') || memKey l k') := by
  by_cases h : k = k'
  · simp [memKey, lookupA_setA, h]
  · simp [memKey, lookupA_setA, h]

theorem memKey_iff_mem_map_fst (l : List (K × V)) (k : K) :
    memKey l k = true ↔ k ∈ l.map Prod.fst := by
  induction l with
  | nil => simp [memKey, lookupA]
  | cons p rest ih =>
      obtain ⟨a, b⟩ := p
      by_cases h : a = k
      · subst h
        simp [memKey, lookupA]
      · simp only [memKey, lookupA, if_neg h, List.map_cons, List.mem_cons]
        rw [← memKey]
        rw [ih]
        constructor
        · intro hm; exact Or.inr hm
        · rintro (hm | hm)
          · exact absurd hm.symm h
          · exact hm

theorem ctxGetItem_branch (base br : List (K × V)) (k : K) :
    ctxGetItem ⟨base, some br⟩ k =
      match lookupA br k with
      | some v => some v
      | none => lookupA base k := by
  cases br with
  | nil => simp [ctxGetItem, lookupA]
  | cons p rest => simp [ctxGetItem]

/-- Paired form of `runOps` for a context whose branch overlay is
active: the state is just `(base, branch)` and each write follows the
`__setitem__` rule. -/
def runOps2 : List (K × V) → List (K × V) × List (K × V) → List (K × V) × List (K × V)
  | [], s => s
  | (k, v) :: rest, (base, br) =>
      if memKey br k || !(memKey base k) then runOps2 rest (base, setA br k v)
      else runOps2 rest (setA base k v, br)

theorem runOps_eq_runOps2 (ops : List (K × V)) :
    ∀ base br, runOps (⟨base, some br⟩ : AppCtx K V) ops =
      ⟨(runOps2 ops (base, br)).1, some (runOps2 ops (base, br)).2⟩ := by
  induction ops with
  | nil => intro base br; rfl
  | cons p rest ih =>
      intro base br
      obtain ⟨k, v⟩ := p
      by_cases h : memKey br k || !(memKey base k)
      · simp only [runOps, ctxSetItem, if_pos h, runOps2, ih]
      · simp only [runOps, ctxSetItem, if_neg h, runOps2, ih]

theorem runOps2_memKey_base (ops : List (K × V)) :
    ∀ base br k, memKey (runOps2 ops (base, br)).1 k = memKey base k := by
  induction ops with
  | nil => intro base br k; rfl
  | cons p rest ih =>
      intro base br k
      obtain ⟨k0, v0⟩ := p
      by_cases h : memKey br k0 || !(memKey base k0)
      · simp only [runOps2, if_pos h, ih]
      · have hsplit : memKey br k0 = false ∧ memKey base k0 = true := by
          simpa using h
        have hbase := hsplit.2
        simp only [runOps2, if_neg h, ih]
        rw [memKey_setA]
        by_cases hk : k0 = k
        · subst hk; simp [hbase]
        · simp [hk]

theorem runOps2_branch_mono (ops : List (K × V)) :
    ∀ base br k, memKey br k = true →
      memKey (runOps2 ops (base, br)).2 k = true := by
  induction ops with
  | nil => intro base br k h; exact h
  | cons p rest ih =>
      intro base br k h
      obtain ⟨k0, v0⟩ := p
      by_cases hc : memKey br k0 || !(memKey base k0)
      · simp only [runOps2, if_pos hc]
        exact ih _ _ _ (by rw [memKey_setA, h]; simp)
      · simp only [runOps2, if_neg hc]
        exact ih _ _ _ h

theorem runOps2_base_shadowed (ops : List (K × V)) :
    ∀ base br k, memKey br k = true →
      lookupA (runOps2 ops (base, br)).1 k = lookupA base k := by
  induction ops with
  | nil => intro base br k _; rfl
  | cons p rest ih =>
      intro base br k h
      obtain ⟨k0, v0⟩ := p
      by_cases hc : memKey br k0 || !(memKey base k0)
      · simp only [runOps2, if_pos hc]
        exact ih _ _ _ (by rw [memKey_setA, h]; simp)
      · have hsplit : memKey br k0 = false ∧ memKey base k0 = true := by
          simpa using hc
        have hbr := hsplit.1
        have hne : k0 ≠ k := fun he => by rw [he] at hbr; rw [h] at hbr; cases hbr
        simp only [runOps2, if_neg hc]
        rw [ih _ _ _ h, lookupA_setA, if_neg hne]

theorem runOps2_base_untouched (ops : List (K × V)) :
    ∀ base br k, (∀ p ∈ ops, p.1 ≠ k) →
      lookupA (runOps2 ops (base, br)).1 k = lookupA base k := by
  induction ops with
  | nil => intro base br k _; rfl
  | cons p rest ih =>
      intro base br k h
      obtain ⟨k0, v0⟩ := p
      have hne : k0 ≠ k := h (k0, v0) (List.mem_cons_self _ _)
      have hrest : ∀ p ∈ rest, p.1 ≠ k := fun q hq => h q (List.mem_cons_of_mem _ hq)
      by_cases hc : memKey br k0 || !(memKey base k0)
      · simp only [runOps2, if_pos hc]
        exact ih _ _ _ hrest
      · simp only [runOps2, if_neg hc]
        rw [ih _ _ _ hrest, lookupA_setA, if_neg hne]

/-- Claim C3: with an active branch overlay, `get(key)` returns the
overlay's value when the key is present in the overlay and otherwise
the base's value; `set(key, value)` stores into the overlay when the
key is already in the overlay or absent from the base, and otherwise
writes through to the base. -/
theorem C3_overlay_get_set (base br : List (K × V)) (k : K) (v : V) :
    (memKey br k = true → ctxGetItem ⟨base, some br⟩ k = lookupA br k) ∧
    (memKey br k = false → ctxGetItem ⟨base, some br⟩ k = lookupA base k) ∧
    ((memKey br k = true ∨ memKey base k = false) →
      ctxSetItem ⟨base, some br⟩ k v = ⟨base, some (setA br k v)⟩) ∧
    (memKey br k = false → memKey base k = true →
      ctxSetItem ⟨base, some br⟩ k v = ⟨setA base k v, some br⟩) := by
  refine ⟨?_, ?_, ?_, ?_⟩
  · intro h
    obtain ⟨w, hw⟩ := Option.isSome_iff_exists.mp h
    rw [ctxGetItem_branch, hw]
  · intro h
    have hw : lookupA br k = none := Option.not_isSome_iff_eq_none.mp (by rw [memKey] at h; simp [h])
    rw [ctxGetItem_branch, hw]
  · intro h
    have hc : (memKey br k || !(memKey base k)) = true := by
      rcases h with h | h
      · simp [h]
      · simp [h]
    simp only [ctxSetItem, if_pos hc]
  · intro h1 h2
    have hc : (memKey br k || !(memKey base k)) = false := by simp [h1, h2]
    simp only [ctxSetItem, hc, Bool.false_eq_true, if_false]

/-- Concrete instance of `C3_overlay_get_set`: base `{1↦10, 2↦20}`,
overlay `{1↦11}`; reading `1` hits the overlay, reading `2` falls
through; writing `1` and a fresh key `3` go to the overlay, writing the
pre-existing base key `2` writes through to the base. -/
theorem C3_overlay_get_set_witness :
    ctxGetItem (⟨[(1, 10), (2, 20)], some [(1, 11)]⟩ : AppCtx Nat Nat) 1 = lookupA [(1, 11)] 1 ∧
    ctxGetItem (⟨[(1, 10), (2, 20)], some [(1, 11)]⟩ : AppCtx Nat Nat) 2 = lookupA [(1, 10), (2, 20)] 2 ∧
    ctxSetItem (⟨[(1, 10), (2, 20)], some [(1, 11)]⟩ : AppCtx Nat Nat) 3 99 =
      ⟨[(1, 10), (2, 20)], some (setA [(1, 11)] 3 99)⟩ ∧
    ctxSetItem (⟨[(1, 10), (2, 20)], some [(1, 11)]⟩ : AppCtx Nat Nat) 2 99 =
      ⟨setA [(1, 10), (2, 20)] 2 99, some [(1, 11)]⟩ :=
  ⟨(C3_overlay_get_set _ _ 1 0).1 (by decide),
   ((C3_overlay_get_set _ _ 2 0).2.1 (by decide)),
   ((C3_overlay_get_set _ _ 3 99).2.2.1 (Or.inr (by decide))),
   ((C3_overlay_get_set _ _ 2 99).2.2.2 (by decide) (by decide))⟩

/-- Claim C6: the branch overlay opened for an item is discarded when
the item's processing exits: the previous overlay state is restored;
any key absent from the base before the branch is absent afterwards
(new keys are ephemeral); every base key remains present; a key
shadowed by the seed overlay keeps its base value; and a key never
written during the item keeps its base value. -/
theorem C6_branch_discarded (base : List (K × V)) (prevBr : Option (List (K × V)))
    (seed ops : List (K × V)) (k : K) :
    (processItemCtx ⟨base, prevBr⟩ seed ops).branch = prevBr ∧
    (memKey base k = false →
      lookupA (processItemCtx ⟨base, prevBr⟩ seed ops).base k = none) ∧
    (memKey base k = true →
      memKey (processItemCtx ⟨base, prevBr⟩ seed ops).base k = true) ∧
    (memKey seed k = true →
      lookupA (processItemCtx ⟨base, prevBr⟩ seed ops).base k = lookupA base k) ∧
    ((∀ p ∈ ops, p.1 ≠ k) →
      lookupA (processItemCtx ⟨base, prevBr⟩ seed ops).base k = lookupA base k) := by
  have hbase : (processItemCtx ⟨base, prevBr⟩ seed ops).base = (runOps2 ops (base, seed)).1 := by
    simp only [processItemCtx, runOps_eq_runOps2]
  refine ⟨?_, ?_, ?_, ?_, ?_⟩
  · simp only [processItemCtx]
  · intro h
    rw [hbase]
    have := runOps2_memKey_base (K := K) (V := V) ops base seed k
    rw [h] at this
    exact Option.not_isSome_iff_eq_none.mp (by rw [memKey] at this; simp [this])
  · intro h
    rw [hbase, runOps2_memKey_base]
    exact h
  · intro h
    rw [hbase]
    exact runOps2_base_shadowed _ _ _ _ h
  · intro h
    rw [hbase]
    exact runOps2_base_untouched _ _ _ _ h

/-- Concrete instance of `C6_branch_discarded`: base `{1↦10, 2↦20}`,
seed `{5↦50}`, the item writes keys 5, 7 and 1; afterwards the fresh
key 7 is gone, base key 1 is still present, the seeded key 5 left the
base alone, and the untouched base key 2 is unchanged. -/
theorem C6_branch_discarded_witness :
    (processItemCtx (⟨[(1, 10), (2, 20)], none⟩ : AppCtx Nat Nat)
        [(5, 50)] [(5, 99), (7, 1), (1, 42)]).branch = none ∧
    lookupA (processItemCtx (⟨[(1, 10), (2, 20)], none⟩ : AppCtx Nat Nat)
        [(5, 50)] [(5, 99), (7, 1), (1, 42)]).base 7 = none ∧
    memKey (processItemCtx (⟨[(1, 10), (2, 20)], none⟩ : AppCtx Nat Nat)
        [(5, 50)] [(5, 99), (7, 1), (1, 42)]).base 1 = true ∧
    lookupA (processItemCtx (⟨[(1, 10), (2, 20)], none⟩ : AppCtx Nat Nat)
        [(5, 50)] [(5, 99), (7, 1), (1, 42)]).base 5 = lookupA [(1, 10), (2, 20)] 5 ∧
    lookupA (processItemCtx (⟨[(1, 10), (2, 20)], none⟩ : AppCtx Nat Nat)
        [(5, 50)] [(5, 99), (7, 1), (1, 42)]).base 2 = lookupA [(1, 10), (2, 20)] 2 :=
  ⟨(C6_branch_discarded _ _ _ _ 0).1,
   (C6_branch_discarded _ _ _ _ 7).2.1 (by decide),
   (C6_branch_discarded _ _ _ _ 1).2.2.1 (by decide),
   (C6_branch_discarded _ _ _ _ 5).2.2.2.1 (by decide),
   (C6_branch_discarded _ _ _ _ 2).2.2.2.2 (by decide)⟩

/-- Claim C10: iterating the scoped context yields exactly the keys
present in both the active branch overlay and the base mapping; with no
active branch, iteration yields no keys at all, while `get` still
retrieves base entries. -/
theorem C10_iter_intersection (base br : List (K × V)) (k : K) :
    (k ∈ ctxIterKeys (⟨base, some br⟩ : AppCtx K V) ↔
      memKey br k = true ∧ memKey base k = true) ∧
    ctxIterKeys (⟨base, none⟩ : AppCtx K V) = [] ∧
    ctxGetItem (⟨base, none⟩ : AppCtx K V) k = lookupA base k := by
  refine ⟨?_, rfl, rfl⟩
  simp only [ctxIterKeys, Option.getD_some, List.mem_filter]
  constructor
  · rintro ⟨h1, h2⟩; exact ⟨(memKey_iff_mem_map_fst _ _).mpr h1, h2⟩
  · rintro ⟨h1, h2⟩; exact ⟨(memKey_iff_mem_map_fst _ _).mp h1, h2⟩

/-- Concrete instance of `C10_iter_intersection`: overlay keys `{1, 3}`
and base keys `{1, 2}` intersect in `{1}`; with no overlay the
iteration is empty even though `get 1` still finds the base entry. -/
theorem C10_iter_intersection_witness :
    1 ∈ ctxIterKeys (⟨[(1, 10), (2, 20)], some [(1, 11), (3, 33)]⟩ : AppCtx Nat Nat) ∧
    ctxIterKeys (⟨[(1, 10), (2, 20)], none⟩ : AppCtx Nat Nat) = [] ∧
    ctxGetItem (⟨[(1, 10), (2, 20)], none⟩ : AppCtx Nat Nat) 1 = lookupA [(1, 10), (2, 20)] 1 :=
  ⟨(C10_iter_intersection _ _ 1).1.mpr (by decide),
   (C10_iter_intersection (V := Nat) [(1, 10), (2, 20)] [] 0).2.1,
   (C10_iter_intersection [(1, 10), (2, 20)] [] 1).2.2⟩

/-! ## Batch dispatch (`Application.process_action_data`, `core/application.py`)

The driver classifies a batch and either creates one `asyncio` task per
item and `gather`s them, or processes the batch value as a single item.
The event loop is embedded as an explicit scheduler: each created task
is a cooperative coroutine with a number of suspension-separated
segments and a final outcome; a schedule is the sequence of task
indices the loop gives control to.
-/

/-- One dispatched per-item coroutine: `steps` is the number of extra
suspension points its body hits before finishing (so it occupies
`steps + 1` scheduler segments), `body` is what the action body
produces for the item (`.ok result` or `.error exception`). -/
structure TaskSpec (ε ρ : Type) where
  steps : Nat
  body : Except ε ρ

/-- The `wrapper` closure inside `Application.process_action_data`: awaits the
action on the item; on an exception, returns the exception object as
the result when `self.return_exceptions` is set, otherwise re-raises.
The outer `Except` is the coroutine raising; the inner one
distinguishes a normal result from an exception object delivered as a
result value. -/
def wrapperOutcome (returnExceptions : Bool) (body : Except ε ρ) :
    Except ε (Except ε ρ) :=
  match body with
  | .ok r => .ok (.ok r)
  | .error e => if returnExceptions then .ok (.error e) else .error e

/-- The shape of one batch of action data: an asynchronous sequence, a
synchronous iterable (collection or iterator — both satisfy Python's
`Iterable`), or a single non-iterable item. -/
inductive PyData (ι : Type) where
  | asyncIter : List ι → PyData ι
  | syncIter : List ι → PyData ι
  | atom : ι → PyData ι

/-- How `process_action_data` dispatches a batch: a list of tasks to
`gather`, or a single awaited item. -/
inductive DispatchPlan (ε ρ : Type) where
  | gatherTasks : List (TaskSpec ε ρ) → DispatchPlan ε ρ
  | singleItem : TaskSpec ε ρ → DispatchPlan ε ρ

/-- Model of `Application.process_action_data`: when `protected_items` is false
and the batch is an `AsyncIterable` or an `Iterable`, one
`asyncio.create_task` per item is made, in item order, each item
receiving the next counter index; otherwise (`tasks is None`) the whole
batch value is processed as a single item.  `itemTask it idx` is the
wrapped per-item coroutine, `selfTask d idx` the coroutine for the
batch processed as one item. -/
def process_action_data {ι ε ρ : Type} (protectedItems : Bool)
    (itemTask : ι → Nat → TaskSpec ε ρ) (selfTask : PyData ι → Nat → TaskSpec ε ρ)
    (counter : Nat) (d : PyData ι) : DispatchPlan ε ρ :=
  let tasks : Option (List (TaskSpec ε ρ)) :=
    if protectedItems then none
    else
      match d with
      | .asyncIter items => some (items.enum.map fun p => itemTask p.2 (counter + p.1))
      | .syncIter items => some (items.enum.map fun p => itemTask p.2 (counter + p.1))
      | .atom _ => none
  match tasks with
  | some ts => .gatherTasks ts
  | none => .singleItem (selfTask d counter)

/-- Cooperative-scheduler state for `await asyncio.gather(*tasks, ...)`:
`rem` holds each task's remaining segments, `outs` each task's
(immutable) wrapped outcome, `slots` the gather result slots (filled at
each task's completion), `trace` the sequence of task indices given
control so far, and `order` the completion order. -/
structure GatherState (ε ρ : Type) where
  rem : List Nat
  outs : List (Except ε (Except ε ρ))
  slots : List (Option (Except ε (Except ε ρ)))
  trace : List Nat
  order : List Nat

/-- One scheduler tick: give control to task `i`.  Only an unfinished
task can be picked; the final segment records the task's outcome into
its gather slot and its completion into `order`. -/
def schedTick (st : GatherState ε ρ) (i : Nat) : Option (GatherState ε ρ) :=
  match st.rem.get? i with
  | some (r + 1) =>
      some (if r = 0 then
        { st with rem := st.rem.set i 0,
                  slots := st.slots.set i (st.outs.get? i),
                  trace := st.trace ++ [i],
                  order := st.order ++ [i] }
      else
        { st with rem := st.rem.set i r, trace := st.trace ++ [i] })
  | _ => none

/-- Run a schedule: apply the ticks in order; `none` if the schedule
ever picks a finished or nonexistent task. -/
def schedRun (st : GatherState ε ρ) : List Nat → Option (GatherState ε ρ)
  | [] => some st
  | i :: σ =>
      match schedTick st i with
      | some st' => schedRun st' σ
      | none => none

/-- Initial state after the `create_task` comprehension: every task
still has all of its segments to run and no gather slot is filled. -/
def initGather (returnExceptions : Bool) (tasks : List (TaskSpec ε ρ)) :
    GatherState ε ρ :=
  { rem := tasks.map fun t => t.steps + 1,
    outs := tasks.map fun t => wrapperOutcome returnExceptions t.body,
    slots := tasks.map fun _ => none,
    trace := [], order := [] }

/-- All created tasks have finished. -/
def completed (st : GatherState ε ρ) : Bool := st.rem.all (· == 0)

/-- What `await asyncio.gather(*tasks, return_exceptions=re)` returns,
slot by slot in task order: a normal wrapper return contributes its
value; a raising task contributes the exception object when `re` is
set; with `re` unset a raising task makes gather raise instead of
returning an array (`none`); an unfilled slot means gather has not
returned yet. -/
def collectSlots (re : Bool) :
    List (Option (Except ε (Except ε ρ))) → Option (List (Except ε ρ))
  | [] => some []
  | s :: rest =>
      match s, re with
      | some (.ok v), _ => (collectSlots re rest).map fun l => v :: l
      | some (.error e), true => (collectSlots re rest).map fun l => Except.error e :: l
      | _, _ => none

/-- The result array of the gather, if it returns one. -/
def gatherArray (re : Bool) (st : GatherState ε ρ) : Option (List (Except ε ρ)) :=
  collectSlots re st.slots

/-- asyncio's deterministic FIFO ready queue: tasks enter in creation
order; a ticked task that still has segments left re-enters at the back
of the queue.  `fuel` bounds the loop; the total number of remaining
segments plus the queue length always suffices. -/
def fifoSched (fuel : Nat) (queue rem : List Nat) : List Nat :=
  match fuel with
  | 0 => []
  | fuel + 1 =>
      match queue with
      | [] => []
      | i :: qs =>
          match rem.get? i with
          | some (r + 1) =>
              i :: fifoSched fuel (if r = 0 then qs else qs ++ [i]) (rem.set i r)
          | _ => fifoSched fuel qs rem

/-- The schedule the asyncio event loop actually follows for a list of
tasks created in order with no other tasks pending. -/
def fifoScheduleOf (tasks : List (TaskSpec ε ρ)) : List Nat :=
  let rem := tasks.map fun t => t.steps + 1
  fifoSched (rem.foldl (· + ·) 0 + rem.length + 1) (List.range tasks.length) rem

/-! Scheduler invariant: a slot is filled exactly when its task has
finished, and then it holds that task's outcome. -/

theorem listGetSet_self {α : Type} (l : List α) (i : Nat) (a : α) (h : i < l.length) :
    (l.set i a).get? i = some a := by
  induction l generalizing i with
  | nil => simp at h
  | cons b t ih =>
      cases i with
      | zero => rfl
      | succ n => simpa using ih n (by simpa using h)

theorem listGetSet_ne {α : Type} (l : List α) (i j : Nat) (a : α) (h : i ≠ j) :
    (l.set i a).get? j = l.get? j := by
  induction l generalizing i j with
  | nil => simp
  | cons b t ih =>
      cases i with
      | zero =>
          cases j with
          | zero => exact absurd rfl h
          | succ m => rfl
      | succ n =>
          cases j with
          | zero => rfl
          | succ m => simpa using ih n m (fun he => h (by rw [he]))

/-- The slot/remaining-segments invariant of the gather scheduler. -/
structure SchedInv (st : GatherState ε ρ) : Prop where
  hrem : st.rem.length = st.outs.length
  hslots : st.slots.length = st.outs.length
  hdone : ∀ i, st.rem.get? i = some 0 → st.slots.get? i = some (st.outs.get? i)
  hpending : ∀ i r, st.rem.get? i = some (r + 1) → st.slots.get? i = some none

theorem initGather_inv (re : Bool) (tasks : List (TaskSpec ε ρ)) :
    SchedInv (initGather re tasks) := by
  refine ⟨by simp [initGather], by simp [initGather], ?_, ?_⟩
  · intro i h
    simp only [initGather, List.get?_map] at h
    cases ht : tasks.get? i with
    | none => rw [ht] at h; simp at h
    | some t => rw [ht] at h; simp at h
  · intro i r h
    simp only [initGather, List.get?_map] at h ⊢
    cases ht : tasks.get? i with
    | none => rw [ht] at h; simp at h
    | some t => rfl

theorem schedTick_inv (st st' : GatherState ε ρ) (i : Nat)
    (hInv : SchedInv st) (h : schedTick st i = some st') :
    SchedInv st' ∧ st'.outs = st.outs := by
  unfold schedTick at h
  split at h
  case h_2 => cases h
  case h_1 x r' hr =>
          have hilt : i < st.rem.length := by
            by_contra hge
            rw [List.get?_eq_none.mpr (Nat.le_of_not_lt hge)] at hr
            cases hr
          have hislots : i < st.slots.length := by
            rw [hInv.hslots, ← hInv.hrem]; exact hilt
          split at h
          next hz =>
            subst hz
            injection h with h
            subst h
            refine ⟨⟨?_, ?_, ?_, ?_⟩, rfl⟩
            · simpa [List.length_set] using hInv.hrem
            · simpa [List.length_set] using hInv.hslots
            · intro j hj
              dsimp only at hj ⊢
              by_cases hij : i = j
              · subst hij
                rw [listGetSet_self _ _ _ hislots]
              · rw [listGetSet_ne _ _ _ _ hij] at hj
                rw [listGetSet_ne _ _ _ _ hij]
                exact hInv.hdone j hj
            · intro j r hj
              dsimp only at hj ⊢
              by_cases hij : i = j
              · subst hij
                rw [listGetSet_self _ _ _ hilt] at hj
                cases hj
              · rw [listGetSet_ne _ _ _ _ hij] at hj
                rw [listGetSet_ne _ _ _ _ hij]
                exact hInv.hpending j r hj
          next hz =>
            injection h with h
            subst h
            refine ⟨⟨?_, ?_, ?_, ?_⟩, rfl⟩
            · simpa [List.length_set] using hInv.hrem
            · exact hInv.hslots
            · intro j hj
              dsimp only at hj ⊢
              by_cases hij : i = j
              · subst hij
                rw [listGetSet_self _ _ _ hilt] at hj
                injection hj with hj
                exact absurd hj hz
              · rw [listGetSet_ne _ _ _ _ hij] at hj
                exact hInv.hdone j hj
            · intro j r hj
              dsimp only at hj ⊢
              by_cases hij : i = j
              · subst hij
                exact hInv.hpending i r' hr
              · rw [listGetSet_ne _ _ _ _ hij] at hj
                exact hInv.hpending j r hj

theorem schedRun_inv (σ : List Nat) :
    ∀ st st' : GatherState ε ρ, SchedInv st → schedRun st σ = some st' →
      SchedInv st' ∧ st'.outs = st.outs := by
  induction σ with
  | nil =>
      intro st st' hInv h
      injection h with h
      subst h
      exact ⟨hInv, rfl⟩
  | cons i σ ih =>
      intro st st' hInv h
      unfold schedRun at h
      cases ht : schedTick st i with
      | none => rw [ht] at h; cases h
      | some st1 =>
          rw [ht] at h
          obtain ⟨hInv1, houts1⟩ := schedTick_inv st st1 i hInv ht
          obtain ⟨hInv2, houts2⟩ := ih st1 st' hInv1 h
          exact ⟨hInv2, houts2.trans houts1⟩

theorem completed_slots (st : GatherState ε ρ)
    (hInv : SchedInv st) (hc : completed st = true) :
    st.slots = st.outs.map some := by
  apply List.ext
  intro n
  rw [List.get?_map]
  by_cases hn : n < st.outs.length
  · have hrem : n < st.rem.length := by rw [hInv.hrem]; exact hn
    cases hr : st.rem.get? n with
    | none =>
        rw [List.get?_eq_none] at hr
        omega
    | some r =>
        have hrz : r = 0 := by
          have hmem := List.get?_mem hr
          have := (List.all_eq_true.mp hc) r hmem
          simpa using this
        subst hrz
        rw [hInv.hdone n hr]
        cases ho : st.outs.get? n with
        | none =>
            rw [List.get?_eq_none] at ho
            omega
        | some o => rfl
  · have h1 : st.slots.get? n = none := by
      rw [List.get?_eq_none, hInv.hslots]
      omega
    have h2 : st.outs.get? n = none := by
      rw [List.get?_eq_none]
      omega
    rw [h1, h2]
    rfl

/-- After any completing schedule, the slots hold exactly the wrapped
outcomes, in task-creation order. -/
theorem schedRun_complete_slots (re : Bool) (tasks : List (TaskSpec ε ρ))
    (σ : List Nat) (st : GatherState ε ρ)
    (hrun : schedRun (initGather re tasks) σ = some st)
    (hc : completed st = true) :
    st.slots = tasks.map fun t => some (wrapperOutcome re t.body) := by
  obtain ⟨hInv, houts⟩ := schedRun_inv σ _ st (initGather_inv re tasks) hrun
  rw [completed_slots st hInv hc, houts]
  simp [initGather, List.map_map, Function.comp]

theorem collectSlots_true (bodies : List (Except ε ρ)) :
    collectSlots true (bodies.map fun b => some (wrapperOutcome true b)) =
      some bodies := by
  induction bodies with
  | nil => rfl
  | cons b rest ih =>
      cases b with
      | ok r =>
          rw [List.map_cons]
          show (collectSlots true (rest.map fun b => some (wrapperOutcome true b))).map
            (fun l => Except.ok r :: l) = some (Except.ok r :: rest)
          rw [ih]
          rfl
      | error e =>
          rw [List.map_cons]
          show (collectSlots true (rest.map fun b => some (wrapperOutcome true b))).map
            (fun l => Except.error e :: l) = some (Except.error e :: rest)
          rw [ih]
          rfl

theorem collectSlots_false (bodies : List (Except ε ρ)) (res : List (Except ε ρ)) :
    collectSlots false (bodies.map fun b => some (wrapperOutcome false b)) =
      some res → res = bodies := by
  induction bodies generalizing res with
  | nil =>
      intro h
      injection h with h
      exact h.symm
  | cons b rest ih =>
      intro h
      cases b with
      | ok r =>
          rw [List.map_cons] at h
          have h2 : (collectSlots false (rest.map fun b => some (wrapperOutcome false b))).map
              (fun l => Except.ok r :: l) = some res := h
          cases hrest : collectSlots false (rest.map fun b => some (wrapperOutcome false b)) with
          | none => rw [hrest] at h2; cases h2
          | some l =>
              rw [hrest] at h2
              injection h2 with h2
              rw [← h2, ih l hrest]
      | error e =>
          rw [List.map_cons] at h
          have h2 : (none : Option (List (Except ε ρ))) = some res := h
          cases h2

/-- Whenever the gather of a dispatched batch returns a result array,
that array is the per-item outcomes in task-creation (= item) order. -/
theorem gatherArray_complete (re : Bool) (tasks : List (TaskSpec ε ρ))
    (σ : List Nat) (st : GatherState ε ρ) (res : List (Except ε ρ))
    (hrun : schedRun (initGather re tasks) σ = some st)
    (hc : completed st = true)
    (hres : gatherArray re st = some res) :
    res = tasks.map fun t => t.body := by
  rw [gatherArray, schedRun_complete_slots re tasks σ st hrun hc] at hres
  have hmm : (tasks.map fun t => some (wrapperOutcome re t.body)) =
      (tasks.map fun t => t.body).map (fun b => some (wrapperOutcome re b)) := by
    rw [List.map_map]
    rfl
  rw [hmm] at hres
  cases re with
  | true =>
      rw [collectSlots_true] at hres
      injection hres with hres
      exact hres.symm
  | false => exact collectSlots_false _ res hres


/-- Claim C7: for every concurrently dispatched batch (a plan of
created tasks produced by `process_action_data`), whenever the gather
returns a results array, it has one slot per item and slot `i` holds
the outcome of item `i` of the original batch, for every schedule —
i.e. regardless of the order in which the tasks actually complete. -/
theorem C7_concurrent_result_order {ι ε ρ : Type} (protectedItems : Bool)
    (itemTask : ι → Nat → TaskSpec ε ρ) (selfTask : PyData ι → Nat → TaskSpec ε ρ)
    (counter : Nat) (d : PyData ι) (tasks : List (TaskSpec ε ρ))
    (re : Bool) (σ : List Nat) (st : GatherState ε ρ) (res : List (Except ε ρ))
    (hplan : process_action_data protectedItems itemTask selfTask counter d =
      .gatherTasks tasks)
    (hrun : schedRun (initGather re tasks) σ = some st)
    (hc : completed st = true)
    (hres : gatherArray re st = some res) :
    res.length = tasks.length ∧
    ∀ i, res.get? i = (tasks.get? i).map fun t => t.body := by
  have h := gatherArray_complete re tasks σ st res hrun hc hres
  subst h
  refine ⟨by simp, ?_⟩
  intro i
  rw [List.get?_map]

def itemTaskC7 : Nat → Nat → TaskSpec String Nat := fun v _ => ⟨1, Except.ok (v * 2)⟩

def selfTaskC7 : PyData Nat → Nat → TaskSpec String Nat := fun _ _ => ⟨0, Except.ok 0⟩

def tasksC7 : List (TaskSpec String Nat) := [⟨1, Except.ok 6⟩, ⟨1, Except.ok 8⟩]

def stC7 : GatherState String Nat :=
  (schedRun (initGather false tasksC7) [1, 1, 0, 0]).getD (initGather false tasksC7)

/-- Concrete instance of `C7_concurrent_result_order`: batch `[3, 4]`
under schedule `[1, 1, 0, 0]` — task 1 completes before task 0 (the
completion order is `[1, 0]`), yet the results array is in item order. -/
theorem C7_concurrent_result_order_witness :
    stC7.order = [1, 0] ∧
    ([Except.ok 6, Except.ok 8] : List (Except String Nat)).length = tasksC7.length ∧
    ([Except.ok 6, Except.ok 8] : List (Except String Nat)).get? 0 =
      (tasksC7.get? 0).map (fun t => t.body) ∧
    ([Except.ok 6, Except.ok 8] : List (Except String Nat)).get? 1 =
      (tasksC7.get? 1).map (fun t => t.body) :=
  ⟨rfl,
   (C7_concurrent_result_order false itemTaskC7 selfTaskC7 1 (.syncIter [3, 4]) tasksC7
      false [1, 1, 0, 0] stC7 [Except.ok 6, Except.ok 8]
      (by rfl) (by rfl) (by rfl) (by rfl)).1,
   (C7_concurrent_result_order false itemTaskC7 selfTaskC7 1 (.syncIter [3, 4]) tasksC7
      false [1, 1, 0, 0] stC7 [Except.ok 6, Except.ok 8]
      (by rfl) (by rfl) (by rfl) (by rfl)).2 0,
   (C7_concurrent_result_order false itemTaskC7 selfTaskC7 1 (.syncIter [3, 4]) tasksC7
      false [1, 1, 0, 0] stC7 [Except.ok 6, Except.ok 8]
      (by rfl) (by rfl) (by rfl) (by rfl)).2 1⟩

/-- Claim C8: with `return_exceptions` set, every completing schedule
makes the gather return a results array (the run does not abort): each
slot holds its own item's outcome, a failing item's slot holding the
exception object itself (`Except.error e`) while all other items still
deliver their results. -/
theorem C8_collect_exceptions {ε ρ : Type} (tasks : List (TaskSpec ε ρ))
    (σ : List Nat) (st : GatherState ε ρ)
    (hrun : schedRun (initGather true tasks) σ = some st)
    (hc : completed st = true) :
    gatherArray true st = some (tasks.map fun t => t.body) := by
  rw [gatherArray, schedRun_complete_slots true tasks σ st hrun hc]
  have hmm : (tasks.map fun t => some (wrapperOutcome true t.body)) =
      (tasks.map fun t => t.body).map (fun b => some (wrapperOutcome true b)) := by
    rw [List.map_map]
    rfl
  rw [hmm, collectSlots_true]

def tasksC8 : List (TaskSpec String Nat) :=
  [⟨0, Except.ok 2⟩, ⟨0, Except.ok 4⟩, ⟨0, Except.error "boom"⟩, ⟨0, Except.ok 8⟩]

def stC8 : GatherState String Nat :=
  (schedRun (initGather true tasksC8) [0, 1, 2, 3]).getD (initGather true tasksC8)

/-- Concrete instance of `C8_collect_exceptions`: the specification's
example — action raises on item 3 of `[1, 2, 3, 4]`; the result array
is `[r1, r2, <exception object>, r4]` and the run does not abort. -/
theorem C8_collect_exceptions_witness :
    gatherArray true stC8 =
      some [Except.ok 2, Except.ok 4, Except.error "boom", Except.ok 8] :=
  C8_collect_exceptions tasksC8 [0, 1, 2, 3] stC8 (by rfl) (by rfl)

/-- Claim C2 (amended): a batch that is a synchronous collection or
iterator with `protected_items` false is dispatched by creating one
concurrent task per item, in item order (a later item may start before
an earlier one completes — see `C2_counterexample`); whenever the
gather returns a results array it is in item order. -/
theorem C2_sync_iterable_concurrent {ι ε ρ : Type}
    (items : List ι) (itemTask : ι → Nat → TaskSpec ε ρ)
    (selfTask : PyData ι → Nat → TaskSpec ε ρ) (counter : Nat)
    (re : Bool) (σ : List Nat) (st : GatherState ε ρ) (res : List (Except ε ρ)) :
    process_action_data false itemTask selfTask counter (.syncIter items) =
      .gatherTasks (items.enum.map fun p => itemTask p.2 (counter + p.1)) ∧
    (schedRun (initGather re (items.enum.map fun p => itemTask p.2 (counter + p.1))) σ =
        some st →
      completed st = true → gatherArray re st = some res →
      res = (items.enum.map fun p => itemTask p.2 (counter + p.1)).map fun t => t.body) := by
  refine ⟨rfl, ?_⟩
  intro hrun hc hres
  exact gatherArray_complete re _ σ st res hrun hc hres

def itemTaskC2 : Nat → Nat → TaskSpec String Nat := fun v _ => ⟨1, Except.ok v⟩

def selfTaskC2 : PyData Nat → Nat → TaskSpec String Nat := fun _ _ => ⟨0, Except.ok 0⟩

def tasksC2 : List (TaskSpec String Nat) := [⟨1, Except.ok 0⟩, ⟨1, Except.ok 1⟩]

def stC2 : GatherState String Nat :=
  (schedRun (initGather false tasksC2) (fifoScheduleOf tasksC2)).getD
    (initGather false tasksC2)

/-- Claim C2 counterexample: for the synchronous two-item batch
`[0, 1]` whose items each have one internal suspension point, the code
creates both tasks up front and gathers them, and under the event
loop's FIFO schedule the execution trace is `[0, 1, 0, 1]`: item 1's
first segment runs before item 0's last segment, so dispatch is not
strictly one-after-another (a strictly sequential trace would list the
task indices in non-decreasing order, `List.Pairwise (· ≤ ·)`). -/
theorem C2_counterexample :
    process_action_data false itemTaskC2 selfTaskC2 1 (.syncIter [0, 1]) =
      .gatherTasks tasksC2 ∧
    schedRun (initGather false tasksC2) (fifoScheduleOf tasksC2) = some stC2 ∧
    completed stC2 = true ∧
    stC2.trace = [0, 1, 0, 1] ∧
    ¬ List.Pairwise (· ≤ ·) stC2.trace := by
  refine ⟨rfl, rfl, rfl, rfl, ?_⟩
  have ht : stC2.trace = [0, 1, 0, 1] := rfl
  rw [ht]
  decide


/-! ## Actions and sequential composition (`core/actions.py`)

`Action.__call__` routes a plain action's runner through
`app.plugins.process_action(wrapper, self)` — the Plugin Stack's
action-processing hook — but skips that routing when `self` is a
`MergedAction`.  `Action.__rshift__` (`A >> B`) builds a `ShiftAction`
(a `MergedAction`) whose runner awaits `A`, then `B`.
-/

/-- The shape of an action value: a leaf action (an `Action` subclass
with a user runner, identified by a number), or the `MergedAction`
produced by `Action.__rshift__`. -/
inductive ActExpr where
  | leaf : Nat → ActExpr
  | shiftA : ActExpr → ActExpr → ActExpr
  deriving DecidableEq

/-- Model of `Action.__rshift__`: the `ShiftAction` whose runner awaits `self`
to completion, then awaits `other`. -/
def rshift (a b : ActExpr) : ActExpr := .shiftA a b

/-- Events observable while awaiting an action: the action-processing
hook being invoked with a given action, and a leaf runner body
executing. -/
inductive AEvent where
  | hook : ActExpr → AEvent
  | run : Nat → AEvent
  deriving DecidableEq

/-- Model of `Action.__call__`: a non-`MergedAction` fires the hook with itself
and then runs its body; a `MergedAction` runs its runner directly with
no hook, and the `ShiftAction` runner awaits the left action fully
before the right one. -/
def callEvents : ActExpr → List AEvent
  | .leaf i => [.hook (.leaf i), .run i]
  | .shiftA a b => callEvents a ++ callEvents b

/-- The actions the action-processing hook fired for, in order. -/
def hookTargets (e : ActExpr) : List ActExpr :=
  (callEvents e).filterMap fun ev =>
    match ev with
    | .hook x => some x
    | .run _ => none

theorem hookTargets_shiftA (a b : ActExpr) :
    hookTargets (ActExpr.shiftA a b) = hookTargets a ++ hookTargets b := by
  simp [hookTargets, callEvents, List.filterMap_append]

theorem hookTargets_all_leaf (e : ActExpr) :
    ∀ x ∈ hookTargets e, ∃ i, x = ActExpr.leaf i := by
  induction e with
  | leaf i =>
      intro x hx
      simp [hookTargets, callEvents, List.filterMap] at hx
      exact ⟨i, hx⟩
  | shiftA a b iha ihb =>
      intro x hx
      rw [hookTargets_shiftA] at hx
      rcases List.mem_append.mp hx with h | h
      · exact iha x h
      · exact ihb x h

/-- Claim C5 counterexample: for the composite `A >> B` of two leaf
actions, the action-processing hook fires twice — once for each leaf —
and zero times (not exactly once) for the composite itself. -/
theorem C5_counterexample :
    hookTargets (rshift (.leaf 0) (.leaf 1)) = [.leaf 0, .leaf 1] ∧
    (hookTargets (rshift (.leaf 0) (.leaf 1))).count (rshift (.leaf 0) (.leaf 1)) = 0 ∧
    ¬ (hookTargets (rshift (.leaf 0) (.leaf 1))).count (rshift (.leaf 0) (.leaf 1)) = 1 := by
  exact ⟨rfl, rfl, by decide⟩

/-- Claim C5 (amended): awaiting `A >> B` produces exactly `A`'s events
followed by `B`'s events — `A` is awaited to full completion before `B`
is invoked, with no interleaving — and the action-processing hook fires
once per leaf action, never for the composite (which is the hook
behaviour the source's `MergedAction` check gives, inverted from the
claim). -/
theorem C5_shift_sequential (a b : ActExpr) :
    callEvents (rshift a b) = callEvents a ++ callEvents b ∧
    hookTargets (rshift a b) = hookTargets a ++ hookTargets b ∧
    ∀ x ∈ hookTargets (rshift a b), ∃ i, x = ActExpr.leaf i := by
  exact ⟨rfl, hookTargets_shiftA a b, hookTargets_all_leaf _⟩

/-! ## The Lazy engine (`core/actions.py`)

A `Lazy` wraps a callable with arguments; its `_call_queue` starts as
`[(fn, args, kwargs)]` and operator/method accesses append
`[name, args, kwargs]` entries resolved with `getattr` against the
running value.  Awaiting it resolves every `Lazy` argument first and
folds the queue in order.  Await/`as_future` is pure value passing
here; `ap` applies a wrapped callable, `ga` a method name looked up on
the running value.
-/

mutual
/-- A `Lazy` object: the wrapped callable with its positional and
keyword arguments (the initial `_call_queue` entry) plus the appended
method steps. -/
inductive LazyObj (F V : Type) where
  | mk : F → List (LArg F V) → List (String × LArg F V) → List (LStep F V) → LazyObj F V

/-- One appended `_call_queue` entry: `[name, args, kwargs]`. -/
inductive LStep (F V : Type) where
  | mk : String → List (LArg F V) → List (String × LArg F V) → LStep F V

/-- An argument of a queue entry: a plain value, or a nested `Lazy`. -/
inductive LArg (F V : Type) where
  | val : V → LArg F V
  | lazyA : LazyObj F V → LArg F V
end

mutual
/-- Resolution (`to_args`) of one value: a `Lazy` argument is awaited
(`ensure_future(value())`), a plain value passes through
(`as_future(value)`). -/
def evalArg {F V : Type} (ap : F → List V → List (String × V) → V)
    (ga : V → String → List V → List (String × V) → V) : LArg F V → V
  | .val v => v
  | .lazyA l => evalLazy ap ga l

/-- Resolution (`to_args`) of a positional argument list. -/
def evalArgs {F V : Type} (ap : F → List V → List (String × V) → V)
    (ga : V → String → List V → List (String × V) → V) : List (LArg F V) → List V
  | [] => []
  | a :: rest => evalArg ap ga a :: evalArgs ap ga rest

/-- Resolution (`to_args`) of the values of a keyword-argument dict. -/
def evalKws {F V : Type} (ap : F → List V → List (String × V) → V)
    (ga : V → String → List V → List (String × V) → V) :
    List (String × LArg F V) → List (String × V)
  | [] => []
  | (k, a) :: rest => (k, evalArg ap ga a) :: evalKws ap ga rest

/-- Model of `Lazy.__call__`: run the initial entry — the wrapped callable on
its resolved arguments — then fold the appended steps over the running
value. -/
def evalLazy {F V : Type} (ap : F → List V → List (String × V) → V)
    (ga : V → String → List V → List (String × V) → V) : LazyObj F V → V
  | .mk f args kws steps =>
      evalSteps ap ga (ap f (evalArgs ap ga args) (evalKws ap ga kws)) steps

/-- The loop over appended queue entries: each step resolves its
arguments, looks its name up on the running value (`getattr`), and
calls it; the result becomes the running value. -/
def evalSteps {F V : Type} (ap : F → List V → List (String × V) → V)
    (ga : V → String → List V → List (String × V) → V) (v : V) :
    List (LStep F V) → V
  | [] => v
  | .mk name sargs skws :: rest =>
      evalSteps ap ga (ga v name (evalArgs ap ga sargs) (evalKws ap ga skws)) rest
end

theorem evalArgs_map_val {F V : Type} (ap : F → List V → List (String × V) → V)
    (ga : V → String → List V → List (String × V) → V) (vs : List V) :
    evalArgs ap ga (vs.map .val) = vs := by
  induction vs with
  | nil => rfl
  | cons v rest ih => simp [evalArgs, evalArg, ih]

theorem evalKws_map_val {F V : Type} (ap : F → List V → List (String × V) → V)
    (ga : V → String → List V → List (String × V) → V) (kvs : List (String × V)) :
    evalKws ap ga (kvs.map fun p => (p.1, .val p.2)) = kvs := by
  induction kvs with
  | nil => rfl
  | cons kv rest ih => simp [evalKws, evalArg, ih]

/-- Claim C9: awaiting the LazyCall that wraps callable `f` with plain
positional and keyword argument values, with no further steps appended
to its queue, returns exactly the result of calling `f` directly on
those arguments (await on an already-computed value is the identity in
this embedding). -/
theorem C9_lazy_zero_steps {F V : Type} (ap : F → List V → List (String × V) → V)
    (ga : V → String → List V → List (String × V) → V)
    (f : F) (vs : List V) (kvs : List (String × V)) :
    evalLazy ap ga (.mk f (vs.map .val) (kvs.map fun p => (p.1, .val p.2)) []) =
      ap f vs kvs := by
  show evalSteps ap ga
      (ap f (evalArgs ap ga (vs.map .val))
            (evalKws ap ga (kvs.map fun p => (p.1, .val p.2)))) [] = ap f vs kvs
  rw [evalArgs_map_val, evalKws_map_val]
  rfl


/-! ## Action parameter binding (`Action.__get_bound_sig`, `core/actions.py`) -/

/-- Python values as far as the binding logic distinguishes them:
integers, strings (a kwargs *key* can end up bound as a value), and
`None`. -/
inductive PyVal where
  | vint : Int → PyVal
  | vstr : String → PyVal
  | vnone : PyVal
  deriving DecidableEq, Repr

/-- Model of `inspect.Signature.bind(*positional)` followed by
`apply_defaults()`, for a signature of positional-or-keyword parameters
`(name, default?)` supplied only positionally: parameter `i` is bound
to the `i`-th positional value, else to its declared default, else the
bind raises; more positionals than parameters raises. -/
def signatureBind (params : List (String × Option PyVal)) (pos : List PyVal) :
    Except String (List (String × PyVal)) :=
  if params.length < pos.length then .error "too many positional arguments"
  else
    match (params.enum.mapM fun p =>
        match pos.get? p.1 with
        | some v => some (p.2.1, v)
        | none => p.2.2.map fun d => (p.2.1, d)) with
    | some l => .ok l
    | none => .error "missing a required argument"

/-- Model of `Action.__get_bound_sig`: every `Lazy` positional and keyword
argument is resolved first, then the source calls
`self.__signature.bind(*args, *kwargs)` — the single star on `kwargs`
iterates the resolved kwargs dict, which yields its KEYS, so the key
strings (not the resolved values) are appended as extra positional
values — and applies defaults. -/
def getBoundSig {F : Type} (ap : F → List PyVal → List (String × PyVal) → PyVal)
    (ga : PyVal → String → List PyVal → List (String × PyVal) → PyVal)
    (params : List (String × Option PyVal))
    (args : List (LArg F PyVal)) (kwargs : List (String × LArg F PyVal)) :
    Except String (List (String × PyVal)) :=
  let ra := evalArgs ap ga args
  let rk := evalKws ap ga kwargs
  signatureBind params (ra ++ rk.map fun p => PyVal.vstr p.1)

def apUnit : Unit → List PyVal → List (String × PyVal) → PyVal :=
  fun _ _ _ => PyVal.vnone

def gaUnit : PyVal → String → List PyVal → List (String × PyVal) → PyVal :=
  fun _ _ _ _ => PyVal.vnone

/-- Claim C4 (code bug): an `Action` over a runner `(x, y)` awaited
with positional `1` and keyword `y = 2` binds `x ↦ 1` but `y ↦ "y"` —
the kwargs dict is star-unpacked positionally so its key string is
bound as the value and the supplied `2` is discarded; the handler does
not receive the keyword value under its declared parameter name. -/
theorem C4_bind_star_kwargs_bug :
    getBoundSig apUnit gaUnit [("x", none), ("y", none)]
      [LArg.val (PyVal.vint 1)] [("y", LArg.val (PyVal.vint 2))] =
      .ok [("x", PyVal.vint 1), ("y", PyVal.vstr "y")] ∧
    PyVal.vstr "y" ≠ PyVal.vint 2 := by
  exact ⟨rfl, by decide⟩

/-! ## Action selection (`Application.action_from_args` /
`Application._run_initializer`, `core/application.py`) -/

/-- An application's action registry: the registered action names (the
keys of `_actions`) and `_default_action`. -/
structure AppModel where
  actions : List String
  defaultAction : Option String

/-- Model of `Application.action_from_args`: the bound value of the `action`
argument (after `apply_defaults`); a missing or falsy value (`if not
action or action is empty`) — modelled as `none` — selects the default
action.  Returns the selected name (`action or ""`) and
`self._actions.get(name)`. -/
def action_from_args (app : AppModel) (requested : Option String) :
    String × Option String :=
  let act : Option String :=
    match requested with
    | some s => if s = "" then app.defaultAction else some s
    | none => app.defaultAction
  let name := act.getD ""
  (name, if name ∈ app.actions then some name else none)

/-- What `_run_initializer` did: raised its `TypeError`, or went on to
invoke the initializer with the selected action (or no action). -/
inductive InitOutcome where
  | raised : InitOutcome
  | invoked : Option String → InitOutcome
  deriving DecidableEq

def isRaised : InitOutcome → Bool
  | .raised => true
  | .invoked _ => false

/-- Model of `Application._run_initializer`: looks the action up via
`action_from_args`; only when the lookup yielded an action does it
check `if action_name not in self._actions: raise TypeError(...)`;
in every case that does not raise, `parse_args` runs and the
initializer `self.fn` is invoked. -/
def run_initializer (app : AppModel) (requested : Option String) : InitOutcome :=
  let na := action_from_args app requested
  match na.2 with
  | some _ =>
      if na.1 ∉ app.actions then .raised
      else .invoked na.2
  | none => .invoked none

/-- Claim C1 (code bug): requesting the unknown action `"missing"` from
an application whose only registered action is `"deploy"` raises
nothing — `_actions.get` already returned `None` for the unknown name,
so the unknown-name guard sits in dead code and the initializer is
invoked with no action selected (and the run then dispatches nothing);
in general no input at all can reach the `raise`. -/
theorem C1_unknown_action_not_fatal :
    run_initializer ⟨["deploy"], some "deploy"⟩ (some "missing") =
      InitOutcome.invoked none ∧
    ∀ app requested, isRaised (run_initializer app requested) = false := by
  refine ⟨rfl, ?_⟩
  intro app requested
  simp only [run_initializer, action_from_args]
  by_cases hm :
      ((match requested with
        | some s => if s = "" then app.defaultAction else some s
        | none => app.defaultAction).getD "") ∈ app.actions
  · simp [hm, isRaised]
  · simp [hm, isRaised]


end Lazyplex
